import Mathlib

/-!
# Metric mangling of the Prometheus publisher

A shallow embedding of `src/prometheus/prometheus.go`: the two sanitising regular
expressions, `mangleMetric` and the batch loop `sendMetrics`, together with the
library operations they call (namespace inspection of snap-plugin-lib-go, Go maps,
`strings.Join`, `fmt.Sprintf("%v", _)` and `strconv.ParseFloat`).

Conventions of the embedding:

* a Go `string` is a Lean `String` (a list of Unicode characters);
* a Go `map[string]string` that is *written* is a `Labels` value, an association list
  with unique keys; a Go map that is *iterated* (`m.Tags`) is the list of its entries in
  the order in which the `range` loop visits them, so every statement quantified over
  that list is a statement about every iteration order;
* a run-time panic (slice bounds, index out of range) is the result `none`.
-/

namespace Prometheus

/-! ## Regular expressions -/

/-- Membership in the ASCII range `[lo-hi]` of a regular-expression character class. -/
def inRange (lo hi c : Char) : Bool :=
  decide (lo.toNat ≤ c.toNat) && decide (c.toNat ≤ hi.toNat)

/-- Characters matched by `invalidMetric = regexp.MustCompile("[^a-zA-Z0-9:_]")`. -/
def invalidMetric (c : Char) : Bool :=
  !(inRange 'a' 'z' c || inRange 'A' 'Z' c || inRange '0' '9' c || c == ':' || c == '_')

/-- Characters matched by `invalidLabel = regexp.MustCompile("[^a-zA-Z0-9_]")`. -/
def invalidLabel (c : Char) : Bool :=
  !(inRange 'a' 'z' c || inRange 'A' 'Z' c || inRange '0' '9' c || c == '_')

/-- The method `(*Regexp).ReplaceAllString(src, repl)` for a regular expression that is a single
character class `re`: every matching character of `src` is replaced by `repl`, the others are
copied. -/
def ReplaceAllString (re : Char → Bool) (src repl : String) : String :=
  ⟨src.data.foldr (fun c acc => (if re c then repl.data else [c]) ++ acc) []⟩

/-- Go `strings.Join(elems, sep)`. -/
def Join : List String → String → String
  | [], _ => ""
  | [a], _ => a
  | a :: b :: rest, sep => a ++ sep ++ Join (b :: rest) sep

/-! ## Label maps -/

/-- A Go `map[string]string` under construction: entries with pairwise distinct keys. -/
abbrev Labels := List (String × String)

/-- The statement `tags[k] = v`. -/
def Labels.set (t : Labels) (k v : String) : Labels :=
  (k, v) :: t.filter (fun p => p.1 != k)

/-- The expression `tags[k]` with its presence flag. -/
def Labels.get (t : Labels) (k : String) : Option String :=
  t.lookup k

/-- The key set of a map. -/
def Labels.keys (t : Labels) : List String :=
  t.map Prod.fst

/-- The presence test `_, ok := tags[k]` on the iterated input map. -/
def hasKey (t : List (String × String)) (k : String) : Bool :=
  t.any (fun p => p.1 == k)

/-! ## Metrics of snap-plugin-lib-go -/

/-- The type `plugin.NamespaceElement`. An element is dynamic when it carries a `Name`. -/
structure NamespaceElement where
  Value : String
  Description : String
  Name : String
deriving DecidableEq, Repr

/-- The type `plugin.Namespace`, a slice of elements. -/
abbrev Namespace := List NamespaceElement

/-- The method `(*NamespaceElement).IsDynamic`: `n.Name != ""`. -/
def NamespaceElement.IsDynamic (e : NamespaceElement) : Bool :=
  e.Name != ""

/-- The method `Namespace.Strings`: the `Value` of every element, in order. -/
def Namespace.Strings (n : Namespace) : List String :=
  n.map (fun e => e.Value)

/-- The loop of `Namespace.IsDynamic`, started at position `i`: the positions of the dynamic
elements, in increasing order. -/
def dynamicIndexes : Namespace → Nat → List Nat
  | [], _ => []
  | e :: rest, i =>
    if e.IsDynamic then i :: dynamicIndexes rest (i + 1) else dynamicIndexes rest (i + 1)

/-- The method `Namespace.IsDynamic`: whether some element is dynamic, and the indexes of the
dynamic elements in the namespace. -/
def Namespace.IsDynamic (n : Namespace) : Bool × List Nat :=
  (n.any NamespaceElement.IsDynamic, dynamicIndexes n 0)

/-- The dynamic values a metric can carry in `Data` (an `interface{}`) that are considered
here: integers, booleans and strings. -/
inductive Data where
  | int (n : Int)
  | bool (b : Bool)
  | str (s : String)
deriving DecidableEq, Repr

/-- The fields of `plugin.Metric` read by `mangleMetric`. `Tags` lists the entries of the Go map
in the order in which `range m.Tags` visits them. -/
structure Metric where
  Namespace : Namespace
  Tags : List (String × String)
  Unit : String
  Data : Data
deriving DecidableEq, Repr

/-- The constant `core.STD_TAG_PLUGIN_RUNNING_ON` of snap. -/
def STD_TAG_PLUGIN_RUNNING_ON : String := "plugin_running_on"

/-! ## Number formatting and parsing of the Go standard library -/

/-- The decimal digit character of a number below ten. -/
def digitChar (d : Nat) : Char :=
  Char.ofNat (d + 48)

/-- Decimal digits of `n`, most significant first, pushed in front of `acc`; `fuel` bounds the
number of digits. -/
def decimalDigits : Nat → Nat → List Char → List Char
  | 0, _, acc => acc
  | fuel + 1, n, acc =>
    if n < 10 then digitChar n :: acc
    else decimalDigits fuel (n / 10) (digitChar (n % 10) :: acc)

/-- Decimal rendering of a natural number. -/
def formatNat (n : Nat) : List Char :=
  decimalDigits (n + 1) n []

/-- The rendering `fmt.Sprintf("%v", m.Data)`. -/
def formatV : Data → String
  | .int n => if n < 0 then ⟨'-' :: formatNat n.natAbs⟩ else ⟨formatNat n.natAbs⟩
  | .bool b => if b then "true" else "false"
  | .str s => s

/-- A float64 value: NaN, an infinity, or the finite number `(-1)^neg * mant * 2^exp` in the
scaling of its IEEE 754 encoding (`mant < 2^53`, `-1074 ≤ exp ≤ 971`, and `2^52 ≤ mant` unless
`exp = -1074`). -/
inductive Float64 where
  | nan
  | inf (neg : Bool)
  | fin (neg : Bool) (mant : Nat) (exp : Int)
deriving DecidableEq, Repr

/-- The zero value of a Go `float64` variable. -/
def Float64.zero : Float64 := .fin false 0 (-1074)

/-- The integer part of the base-2 logarithm of `n`, by repeated halving; `fuel` bounds the
number of halvings. -/
def log2Fuel : Nat → Nat → Nat
  | 0, _ => 0
  | fuel + 1, n => if n < 2 then 0 else log2Fuel fuel (n / 2) + 1

/-- The integer part of the base-2 logarithm of a positive natural number. -/
def log2 (n : Nat) : Nat :=
  log2Fuel n n

/-- The integer part of the base-2 logarithm of the positive fraction `num / den`. -/
def floorLog2 (num den : Nat) : Int :=
  if den ≤ num then (log2 (num / den) : Int)
  else
    let l := log2 (den / num)
    if den ≤ num * 2 ^ l then -(l : Int) else -((l : Int) + 1)

/-- The integer nearest to `a / b`, ties going to the even one. -/
def roundHalfEven (a b : Nat) : Nat :=
  let q := a / b
  let r := a % b
  if 2 * r < b then q
  else if b < 2 * r then q + 1
  else if q % 2 = 0 then q else q + 1

/-- IEEE 754 round-to-nearest-even of `(-1)^neg * num / den` to float64; `none` when the rounded
magnitude exceeds the largest finite float64 (the `ErrRange` case of `strconv.ParseFloat`). -/
def roundToFloat64 (neg : Bool) (num den : Nat) : Option Float64 :=
  if num = 0 then some (.fin neg 0 (-1074))
  else
    let p : Int := max (floorLog2 num den - 52) (-1074)
    let n :=
      if 0 ≤ p then roundHalfEven num (den * 2 ^ p.toNat)
      else roundHalfEven (num * 2 ^ (-p).toNat) den
    if n = 2 ^ 53 then
      (if 971 < p + 1 then none else some (.fin neg (2 ^ 52) (p + 1)))
    else
      (if 971 < p then none else some (.fin neg n p))

/-- The test `'0' <= c && c <= '9'`. -/
def isDigit (c : Char) : Bool :=
  inRange '0' '9' c

/-- The value `c - '0'` of a digit. -/
def digitVal (c : Char) : Nat :=
  c.toNat - 48

/-- An optional leading sign: whether it is `-`, and the rest. -/
def stripSign : List Char → Bool × List Char
  | [] => (false, [])
  | c :: r => if c = '+' then (false, r) else if c = '-' then (true, r) else (false, c :: r)

/-- The function `lower` of strconv, `c | ('x' - 'X')`, on the code of a character: it is the
code of a lower-case letter exactly for that letter and its upper-case form. -/
def lower (c : Char) : Nat :=
  c.toNat ||| 32

/-- The test `'a' <= lower(c) && lower(c) <= 'f'`. -/
def isHexLetter (c : Char) : Bool :=
  decide (97 ≤ lower c) && decide (lower c ≤ 102)

/-- The local variables of the mantissa loop of `readFloat`. The source keeps the first 19
(hexadecimal: 16) digits in `mantissa` and a `trunc` flag, from which the conversion still finds
the correctly rounded result; here `mantissa` holds all `nd` digits. -/
structure MantissaState where
  underscores : Bool
  sawdot : Bool
  sawdigits : Bool
  nd : Nat
  dp : Int
  mantissa : Nat
deriving DecidableEq, Repr

/-- The mantissa loop of `readFloat`: underscores are skipped, one point is accepted, leading
zeros are dropped, and the loop stops at the first other character; the result is the state and
the input that is left. -/
def readMantissa (base : Nat) : List Char → MantissaState → MantissaState × List Char
  | [], st => (st, [])
  | c :: r, st =>
    if c = '_' then readMantissa base r { st with underscores := true }
    else if c = '.' then
      if st.sawdot then (st, c :: r)
      else readMantissa base r { st with sawdot := true, dp := st.nd }
    else if isDigit c = true then
      if c = '0' ∧ st.nd = 0 then
        readMantissa base r { st with sawdigits := true, dp := st.dp - 1 }
      else
        readMantissa base r
          { st with sawdigits := true, nd := st.nd + 1,
                    mantissa := st.mantissa * base + digitVal c }
    else if base = 16 ∧ isHexLetter c = true then
      readMantissa base r
        { st with sawdigits := true, nd := st.nd + 1,
                  mantissa := st.mantissa * 16 + (lower c - 87) }
    else (st, c :: r)

/-- The exponent loop of `readFloat`, over digits and underscores: the exponent `e`, which is
accumulated only while it is below 10000, the `underscores` flag, and the input that is left. -/
def readExponentDigits : List Char → Nat → Bool → Nat × Bool × List Char
  | [], e, u => (e, u, [])
  | c :: r, e, u =>
    if c = '_' then readExponentDigits r e true
    else if isDigit c = true then
      readExponentDigits r (if e < 10000 then e * 10 + digitVal c else e) u
    else (e, u, c :: r)

/-- The loop of `underscoreOK`; `saw` is `'0'` after a digit or the base prefix, `'_'` after an
underscore, `'!'` after anything else and `'^'` at the start. -/
def underscoreLoop (hex : Bool) : List Char → Char → Bool
  | [], saw => saw != '_'
  | c :: r, saw =>
    if isDigit c || (hex && isHexLetter c) then underscoreLoop hex r '0'
    else if c = '_' then (if saw = '0' then underscoreLoop hex r '_' else false)
    else if saw = '_' then false
    else underscoreLoop hex r '!'

/-- The function `underscoreOK` of strconv: every underscore separates two digits, or the base
prefix and a digit. -/
def underscoreOK (s : List Char) : Bool :=
  let s1 := match s with
    | [] => []
    | c :: r => if c = '-' ∨ c = '+' then r else c :: r
  match s1 with
  | c0 :: c1 :: r =>
    if c0 = '0' ∧ (lower c1 = 98 ∨ lower c1 = 111 ∨ lower c1 = 120) then
      underscoreLoop (decide (lower c1 = 120)) r '0'
    else underscoreLoop false s1 '^'
  | _ => underscoreLoop false s1 '^'

/-- The results `(mantissa, exp, neg, hex)` of `readFloat`: the literal denotes
`(-1)^neg * mantissa * 10^exp`, or `(-1)^neg * mantissa * 2^exp` when `hex` is set. -/
structure FloatLiteral where
  mantissa : Nat
  exp : Int
  neg : Bool
  hex : Bool
deriving DecidableEq, Repr

/-- The end of `readFloat`: `exp = dp - ndMant` for a mantissa that is not zero, and the check
of the underscores of the input. -/
def finishFloat (s : List Char) (neg hex underscores : Bool) (mantissa : Nat) (dp ndMant : Int) :
    Option FloatLiteral :=
  if underscores && !underscoreOK s then none
  else some ⟨mantissa, if mantissa ≠ 0 then dp - ndMant else 0, neg, hex⟩

/-- The test `i+2 < len(s) && s[i] == '0' && lower(s[i+1]) == 'x'` of `readFloat` on the input
that follows the sign. -/
def hasHexPrefix : List Char → Bool
  | c0 :: c1 :: _ :: _ => decide (c0 = '0') && decide (lower c1 = 120)
  | _ => false

/-- The function `readFloat` of strconv followed by the test of `parseFloat` that the whole
input was read: an optional sign, an optional `0x` prefix, the mantissa, and an exponent (`e`
for a decimal mantissa, `p` for a hexadecimal one, which must have it) with an optional sign and
a first digit. `none` is a syntax error. -/
def readFloat (s : List Char) : Option FloatLiteral :=
  let sr := stripSign s
  let hex : Bool := hasHexPrefix sr.2
  let ms := readMantissa (if hex then 16 else 10) (if hex then sr.2.drop 2 else sr.2)
    ⟨false, false, false, 0, 0, 0⟩
  if !ms.1.sawdigits then none
  else
    let dp0 : Int := if ms.1.sawdot then ms.1.dp else ms.1.nd
    let dp1 : Int := if hex then dp0 * 4 else dp0
    let ndMant : Int := if hex then (ms.1.nd : Int) * 4 else ms.1.nd
    match ms.2 with
    | [] =>
      if hex then none
      else finishFloat s sr.1 hex ms.1.underscores ms.1.mantissa dp1 ndMant
    | c :: r =>
      if lower c = (if hex then 112 else 101) then
        let er := stripSign r
        match er.2 with
        | [] => none
        | d :: _ =>
          if isDigit d = true then
            let ex := readExponentDigits er.2 0 ms.1.underscores
            if ex.2.2.isEmpty then
              finishFloat s sr.1 hex ex.2.1 ms.1.mantissa
                (dp1 + (if er.1 then -(ex.1 : Int) else (ex.1 : Int))) ndMant
            else none
          else none
      else none

/-- The case folding of `commonPrefixLenIgnoreCase` of strconv: `A`-`Z` become `a`-`z`. -/
def foldCase (c : Char) : Char :=
  if inRange 'A' 'Z' c then Char.ofNat (c.toNat + 32) else c

/-- The function `special` of strconv followed by the test of `parseFloat` that the whole input
was read: `inf` and `infinity` with an optional sign, and `nan` without one, in any letter
case. -/
def special (s : List Char) : Option Float64 :=
  let sr := stripSign s
  let w := sr.2.map foldCase
  if w = "inf".data ∨ w = "infinity".data then some (.inf sr.1)
  else if s.map foldCase = "nan".data then some .nan
  else none

/-- The float64 nearest to a parsed literal; `none` when it is out of range (`ErrRange`). -/
def FloatLiteral.toFloat64 (d : FloatLiteral) : Option Float64 :=
  if 0 ≤ d.exp then
    roundToFloat64 d.neg (d.mantissa * (if d.hex then 2 else 10) ^ d.exp.toNat) 1
  else roundToFloat64 d.neg d.mantissa ((if d.hex then 2 else 10) ^ (-d.exp).toNat)

/-- The call `strconv.ParseFloat(s, 64)`: a special value, or a decimal or hexadecimal
floating-point literal of the Go syntax rounded to the nearest float64; `none` stands for a
non-nil error (`ErrSyntax` or `ErrRange`). -/
def ParseFloat (s : String) : Option Float64 :=
  match special s.data with
  | some f => some f
  | none =>
    match readFloat s.data with
    | none => none
    | some d => d.toFloat64

/-! ## The publisher -/

/-- The error built by `errors.New(fmt.Sprintf("Unsupported metric data for prometheus %v:%#v",
name, m.Data))`, kept as the two operands that its message formats. -/
structure MangleError where
  name : String
  data : Data
deriving DecidableEq, Repr

/-- The named results `(name, tags, value, err)` of `mangleMetric` at its `return`. -/
structure Mangled where
  name : String
  tags : Labels
  value : Float64
  err : Option MangleError
deriving DecidableEq, Repr

/-- The loop `for i, j := range indexes` of `mangleMetric`, entered at iteration `i` with the
current `ns` and `tags`: `ns = append(ns[:j-i], ns[j-i+1:]...)`, which panics unless
`0 ≤ j-i` and `j-i+1 ≤ len(ns)`, then `tags[m.Namespace[j].Name] = m.Namespace[j].Value`, which
panics unless `j` is an index of the namespace. -/
def removeDynamic (nsp : Namespace) : List Nat → Nat → List String → Labels →
    Option (List String × Labels)
  | [], _, ns, tags => some (ns, tags)
  | j :: rest, i, ns, tags =>
    if j < i ∨ ns.length < j - i + 1 then none
    else
      match nsp.get? j with
      | none => none
      | some e =>
        removeDynamic nsp rest (i + 1) (ns.take (j - i) ++ ns.drop (j - i + 1))
          (tags.set e.Name e.Value)

/-- The body of the loop `for k, v := range m.Tags` of `mangleMetric`. -/
def tagStep (mtags : List (String × String)) (tags : Labels) (kv : String × String) : Labels :=
  if kv.1 = STD_TAG_PLUGIN_RUNNING_ON then
    let tags1 := if hasKey mtags "source" then tags else tags.set "source" kv.2
    if hasKey mtags "host" then tags1 else tags1.set "host" kv.2
  else tags.set (ReplaceAllString invalidLabel kv.1 "_") kv.2

/-- The function `mangleMetric`; `none` is a run-time panic. -/
def mangleMetric (m : Metric) : Option Mangled :=
  let ns := m.Namespace.Strings
  let dyn := m.Namespace.IsDynamic
  match (if dyn.1 then removeDynamic m.Namespace dyn.2 0 ns [] else some (ns, [])) with
  | none => none
  | some (ns1, tags0) =>
    let ns2 := ns1.map (fun v => ReplaceAllString invalidMetric v "_")
    let tags1 := if hasKey m.Tags "unit" then tags0 else tags0.set "unit" m.Unit
    let tags2 := m.Tags.foldl (tagStep m.Tags) tags1
    let name := Join ns2 "_"
    match ParseFloat (formatV m.Data) with
    | none => some ⟨name, tags2, Float64.zero, some ⟨name, m.Data⟩⟩
    | some f => some ⟨name, tags2, f, none⟩

/-- What `sendMetrics` hands to the push client for one metric: the gateway URL, the job name
and the gauge (name, help text, value) of `push.New(promUrl, name).Collector(metric)`, and the
grouping labels added by `GetTaggedPusher`. -/
structure PushRequest where
  url : String
  job : String
  gaugeName : String
  help : String
  value : Float64
  grouping : Labels
deriving DecidableEq, Repr

/-- The observable effects of `sendMetrics`, in the order in which they happen. -/
inductive Event where
  | push (req : PushRequest)
  | logPushError (name : String) (tags : Labels) (value : Float64)
  | logDecodeError (err : MangleError)
deriving DecidableEq, Repr

/-- The loop `for _, m := range metrics` of `sendMetrics`, with the effects so far in `log`.
`pushFails req log` tells whether `pusher.Push()` returns an error for `req` after the effects
`log`; `none` is a run-time panic. -/
def sendLoop (promUrl : String) (pushFails : PushRequest → List Event → Bool) :
    List Metric → List Event → Option (List Event)
  | [], log => some log
  | m :: rest, log =>
    match mangleMetric m with
    | none => none
    | some r =>
      match r.err with
      | none =>
        let req : PushRequest :=
          ⟨promUrl, r.name, r.name, "Collected metric " ++ r.name, r.value, r.tags⟩
        if pushFails req log then
          sendLoop promUrl pushFails rest
            (log ++ [Event.push req, Event.logPushError r.name r.tags r.value])
        else sendLoop promUrl pushFails rest (log ++ [Event.push req])
      | some e => sendLoop promUrl pushFails rest (log ++ [Event.logDecodeError e])

/-- The function `sendMetrics`: the effects of pushing a batch. The `config` argument only
selects the verbosity of the logger and is left out. -/
def sendMetrics (promUrl : String) (pushFails : PushRequest → List Event → Bool)
    (metrics : List Metric) : Option (List Event) :=
  sendLoop promUrl pushFails metrics []

/-! ## Auxiliary definitions of the proofs -/

/-- The character-wise action of replacing the matches of `re` by an underscore. -/
def underscore (re : Char → Bool) (c : Char) : Char :=
  if re c then '_' else c


/-- The values of the static elements of a namespace, in order. -/
def staticValues (n : Namespace) : List String :=
  (n.filter (fun e => !e.IsDynamic)).map (fun e => e.Value)

/-- The label writes caused by the dynamic elements of a namespace, in order. -/
def dynamicWrites (n : Namespace) : List (String × String) :=
  (n.filter (fun e => e.IsDynamic)).map (fun e => (e.Name, e.Value))

/-- The label writes of one iteration of the tag loop, in order. -/
def tagWrites (mtags : List (String × String)) (kv : String × String) :
    List (String × String) :=
  if kv.1 = STD_TAG_PLUGIN_RUNNING_ON then
    (if hasKey mtags "source" then [] else [("source", kv.2)]) ++
      (if hasKey mtags "host" then [] else [("host", kv.2)])
  else [(ReplaceAllString invalidLabel kv.1 "_", kv.2)]

/-- The label write of the `unit` step. -/
def unitWrites (m : Metric) : List (String × String) :=
  if hasKey m.Tags "unit" then [] else [("unit", m.Unit)]

/-- Every label write of `mangleMetric`, in program order. -/
def labelWrites (m : Metric) : List (String × String) :=
  dynamicWrites m.Namespace ++ unitWrites m ++ m.Tags.flatMap (tagWrites m.Tags)

/-- The label keys written from the input tags. -/
def tagLabelKeys (m : Metric) : List String :=
  (m.Tags.flatMap (tagWrites m.Tags)).map Prod.fst

/-- Performing a list of writes on a label map. -/
def writeAll (t : Labels) (ws : List (String × String)) : Labels :=
  ws.foldl (fun t w => t.set w.1 w.2) t

/-- The value of the last write to `k` in a list of writes. -/
def lastWrite (k : String) : List (String × String) → Option String
  | [] => none
  | w :: ws =>
    match lastWrite k ws with
    | some v => some v
    | none => if w.1 = k then some w.2 else none

/-- The flat name: the sanitised static values joined by underscores. -/
def mangledName (m : Metric) : String :=
  Join ((staticValues m.Namespace).map (fun v => ReplaceAllString invalidMetric v "_")) "_"

/-- The push request that `sendMetrics` makes for a metric that `mangleMetric` accepts. -/
def requestOf (promUrl : String) (m : Metric) : Option PushRequest :=
  match mangleMetric m with
  | some r =>
    match r.err with
    | none => some ⟨promUrl, r.name, r.name, "Collected metric " ++ r.name, r.value, r.tags⟩
    | some _ => none
  | none => none

/-- The decoding error that `sendMetrics` logs for a metric that `mangleMetric` rejects. -/
def decodeErrorOf (m : Metric) : Option MangleError :=
  match mangleMetric m with
  | some r => r.err
  | none => none

/-- The push requests among the effects, in order. -/
def pushes (log : List Event) : List PushRequest :=
  log.filterMap (fun ev => match ev with
    | Event.push req => some req
    | _ => none)

/-- The logged decoding errors among the effects, in order. -/
def decodeErrors (log : List Event) : List MangleError :=
  log.filterMap (fun ev => match ev with
    | Event.logDecodeError e => some e
    | _ => none)

theorem ReplaceAllString_data (re : Char → Bool) (s : String) :
    (ReplaceAllString re s "_").data = s.data.map (underscore re) := by
  unfold ReplaceAllString
  show List.foldr _ [] s.data = _
  induction s.data with
  | nil => rfl
  | cons c cs ih =>
    simp only [List.foldr_cons, List.map_cons, ih, underscore]
    split <;> rfl

theorem invalidMetric_underscore : invalidMetric '_' = false := by decide

theorem invalidLabel_underscore : invalidLabel '_' = false := by decide

theorem underscore_idem (re : Char → Bool) (h : re '_' = false) (c : Char) :
    underscore re (underscore re c) = underscore re c := by
  unfold underscore
  by_cases hc : re c = true
  · simp [hc, h]
  · simp [hc]

theorem ReplaceAllString_idem (re : Char → Bool) (h : re '_' = false) (s : String) :
    ReplaceAllString re (ReplaceAllString re s "_") "_" = ReplaceAllString re s "_" := by
  apply String.ext
  rw [ReplaceAllString_data, ReplaceAllString_data, List.map_map]
  apply List.map_congr_left
  intro c _
  exact underscore_idem re h c

theorem ReplaceAllString_of_valid (re : Char → Bool) (s : String)
    (h : ∀ c ∈ s.data, re c = false) : ReplaceAllString re s "_" = s := by
  apply String.ext
  rw [ReplaceAllString_data]
  conv_rhs => rw [← List.map_id s.data]
  apply List.map_congr_left
  intro c hc
  simp [underscore, h c hc]

/-- Every character of a sanitised string is outside the class that was replaced. -/
theorem ReplaceAllString_valid (re : Char → Bool) (h : re '_' = false) (s : String) :
    ∀ c ∈ (ReplaceAllString re s "_").data, re c = false := by
  intro c hc
  rw [ReplaceAllString_data] at hc
  obtain ⟨d, _, rfl⟩ := List.mem_map.1 hc
  unfold underscore
  by_cases hd : re d = true
  · simp [hd, h]
  · simp [hd]

/-- A sanitised string that contains no underscore is the string that was sanitised. -/
theorem eq_of_ReplaceAllString_eq (re : Char → Bool) (s t : String)
    (h : ReplaceAllString re s "_" = t) (ht : '_' ∉ t.data) : s = t := by
  apply String.ext
  have hd : s.data.map (underscore re) = t.data := by rw [← ReplaceAllString_data, h]
  rw [← hd] at ht
  rw [← hd]
  conv_lhs => rw [← List.map_id s.data]
  apply List.map_congr_left
  intro c hc
  unfold underscore
  by_cases hr : re c = true
  · exact absurd (List.mem_map.2 ⟨c, hc, by simp [underscore, hr]⟩) ht
  · simp [hr]


/-! ## Label maps and write logs -/

theorem lookup_filter_ne (t : Labels) (k k2 : String) (h : k2 ≠ k) :
    List.lookup k2 (t.filter (fun p => p.1 != k)) = List.lookup k2 t := by
  induction t with
  | nil => rfl
  | cons p t ih =>
    obtain ⟨a, b⟩ := p
    by_cases ha : a = k
    · subst ha
      have h1 : (k2 == a) = false := by simpa using h
      simp [List.filter, List.lookup, h1, ih]
    · have h2 : (a != k) = true := by simpa using ha
      simp only [List.filter, h2, List.lookup]
      rw [ih]

theorem Labels.get_set (t : Labels) (k v k2 : String) :
    (t.set k v).get k2 = if k2 = k then some v else t.get k2 := by
  unfold Labels.set Labels.get
  by_cases h : k2 = k
  · subst h
    simp [List.lookup]
  · have h1 : (k2 == k) = false := by simpa using h
    simp only [List.lookup, h1, if_neg h]
    exact lookup_filter_ne t k k2 h

theorem Labels.mem_keys_set (t : Labels) (k v k2 : String) :
    k2 ∈ (t.set k v).keys ↔ k2 = k ∨ k2 ∈ t.keys := by
  unfold Labels.set Labels.keys
  simp only [List.map_cons, List.mem_cons, List.mem_map, List.mem_filter]
  constructor
  · rintro (h | ⟨p, ⟨hp, _⟩, rfl⟩)
    · exact Or.inl h
    · exact Or.inr ⟨p, hp, rfl⟩
  · rintro (h | ⟨p, hp, rfl⟩)
    · exact Or.inl h
    · by_cases hk : p.1 = k
      · exact Or.inl hk
      · exact Or.inr ⟨p, ⟨hp, by simpa using hk⟩, rfl⟩

theorem writeAll_append (t : Labels) (a b : List (String × String)) :
    writeAll t (a ++ b) = writeAll (writeAll t a) b := by
  simp [writeAll, List.foldl_append]

theorem get_writeAll (ws : List (String × String)) (t : Labels) (k : String) :
    (writeAll t ws).get k = (lastWrite k ws).or (t.get k) := by
  induction ws generalizing t with
  | nil => simp [writeAll, lastWrite]
  | cons w ws ih =>
    have : writeAll t (w :: ws) = writeAll (t.set w.1 w.2) ws := rfl
    rw [this, ih, Labels.get_set]
    simp only [lastWrite]
    cases hl : lastWrite k ws with
    | some v => simp
    | none =>
      by_cases hk : w.1 = k
      · simp [hk]
      · have hk2 : ¬ k = w.1 := fun h => hk h.symm
        simp [hk, hk2]

theorem mem_keys_writeAll (ws : List (String × String)) (t : Labels) (k : String) :
    k ∈ (writeAll t ws).keys ↔ k ∈ ws.map Prod.fst ∨ k ∈ t.keys := by
  induction ws generalizing t with
  | nil => simp [writeAll]
  | cons w ws ih =>
    have : writeAll t (w :: ws) = writeAll (t.set w.1 w.2) ws := rfl
    rw [this, ih, Labels.mem_keys_set]
    simp only [List.map_cons, List.mem_cons]
    tauto

theorem lastWrite_append (k : String) (a b : List (String × String)) :
    lastWrite k (a ++ b) = (lastWrite k b).or (lastWrite k a) := by
  induction a with
  | nil => simp [lastWrite]
  | cons w a ih =>
    have e : lastWrite k (w :: a ++ b) =
        match lastWrite k (a ++ b) with
        | some v => some v
        | none => if w.1 = k then some w.2 else none := rfl
    have e2 : lastWrite k (w :: a) =
        match lastWrite k a with
        | some v => some v
        | none => if w.1 = k then some w.2 else none := rfl
    rw [e, e2, ih]
    cases lastWrite k b <;> cases lastWrite k a <;> simp

theorem lastWrite_eq_none (k : String) (ws : List (String × String))
    (h : k ∉ ws.map Prod.fst) : lastWrite k ws = none := by
  induction ws with
  | nil => rfl
  | cons w ws ih =>
    simp only [List.map_cons, List.mem_cons, not_or] at h
    have hk : ¬ w.1 = k := fun e => h.1 e.symm
    simp [lastWrite, ih h.2, hk]

theorem lastWrite_mem (k v : String) (ws : List (String × String))
    (h : lastWrite k ws = some v) : (k, v) ∈ ws := by
  induction ws with
  | nil => simp [lastWrite] at h
  | cons w ws ih =>
    simp only [lastWrite] at h
    cases hl : lastWrite k ws with
    | some u =>
      rw [hl] at h
      simp only [Option.some.injEq] at h
      subst h
      exact List.mem_cons_of_mem _ (ih hl)
    | none =>
      rw [hl] at h
      by_cases hk : w.1 = k
      · simp only [hk, if_true, Option.some.injEq] at h
        have : w = (k, v) := by
          obtain ⟨a, b⟩ := w
          simp only at hk h
          rw [hk, h]
        rw [this]
        exact List.mem_cons_self _ _
      · simp [hk] at h

theorem lastWrite_isSome (k v : String) (ws : List (String × String)) (h : (k, v) ∈ ws) :
    ∃ u, lastWrite k ws = some u := by
  cases hl : lastWrite k ws with
  | some u => exact ⟨u, rfl⟩
  | none =>
    exfalso
    induction ws with
    | nil => simp at h
    | cons w ws ih =>
      simp only [lastWrite] at hl
      cases hl2 : lastWrite k ws with
      | some u => rw [hl2] at hl; simp at hl
      | none =>
        rw [hl2] at hl
        rcases List.mem_cons.1 h with h1 | h1
        · subst h1
          simp at hl
        · exact ih h1 hl2

/-- When every write to `k` carries the value `v`, and there is one, the last one does. -/
theorem lastWrite_of_unique (k v : String) (ws : List (String × String)) (h : (k, v) ∈ ws)
    (hu : ∀ u, (k, u) ∈ ws → u = v) : lastWrite k ws = some v := by
  obtain ⟨u, hl⟩ := lastWrite_isSome k v ws h
  rw [hl, hu u (lastWrite_mem k u ws hl)]


/-! ## The namespace loop and the closed form of `mangleMetric` -/

theorem staticValues_length_add (pre : Namespace) :
    (staticValues pre).length + (dynamicWrites pre).length = pre.length := by
  induction pre with
  | nil => rfl
  | cons e pre ih =>
    unfold staticValues dynamicWrites at ih ⊢
    by_cases he : e.IsDynamic = true
    · simp only [List.filter, he, Bool.not_true, List.map_cons, List.length_cons] at ih ⊢
      omega
    · have he2 : e.IsDynamic = false := by simpa using he
      simp only [List.filter, he2, Bool.not_false, List.map_cons, List.length_cons] at ih ⊢
      omega

theorem dynamicWrites_append (a b : Namespace) :
    dynamicWrites (a ++ b) = dynamicWrites a ++ dynamicWrites b := by
  simp [dynamicWrites]

theorem get?_append_length (pre : Namespace) (e : NamespaceElement) (suf : Namespace) :
    (pre ++ e :: suf).get? pre.length = some e := by
  induction pre with
  | nil => rfl
  | cons a pre ih => simpa [List.get?] using ih

/-- The deletion loop never panics on the indexes reported by `IsDynamic`: entered after the
elements `pre` have been handled, it leaves the static values and performs the writes of the
dynamic elements of the rest `suf`. -/
theorem removeDynamic_spec (suf pre : Namespace) (tags : Labels) :
    removeDynamic (pre ++ suf) (dynamicIndexes suf pre.length) (dynamicWrites pre).length
        (staticValues pre ++ Namespace.Strings suf) tags
      = some (staticValues pre ++ staticValues suf, writeAll tags (dynamicWrites suf)) := by
  induction suf generalizing pre tags with
  | nil => simp [dynamicIndexes, removeDynamic, staticValues, dynamicWrites, writeAll,
      Namespace.Strings]
  | cons e suf ih =>
    have hlen := staticValues_length_add pre
    have happ : pre ++ e :: suf = (pre ++ [e]) ++ suf := by simp
    by_cases he : e.IsDynamic = true
    · have hidx : dynamicIndexes (e :: suf) pre.length
          = pre.length :: dynamicIndexes suf ((pre ++ [e]).length) := by
        simp [dynamicIndexes, he]
      have hsub : pre.length - (dynamicWrites pre).length = (staticValues pre).length := by
        omega
      have hget : (pre ++ e :: suf).get? pre.length = some e := get?_append_length pre e suf
      have hs1 : staticValues (pre ++ [e]) = staticValues pre := by
        simp [staticValues, he]
      have hd1 : (dynamicWrites (pre ++ [e])).length = (dynamicWrites pre).length + 1 := by
        simp [dynamicWrites, he]
      have hsuf : staticValues (e :: suf) = staticValues suf := by
        simp [staticValues, he]
      have hdw : dynamicWrites (e :: suf) = (e.Name, e.Value) :: dynamicWrites suf := by
        simp [dynamicWrites, he]
      have hcond : ¬ (pre.length < (dynamicWrites pre).length ∨
          (staticValues pre ++ Namespace.Strings (e :: suf)).length
            < pre.length - (dynamicWrites pre).length + 1) := by
        simp only [List.length_append, Namespace.Strings, List.map_cons, List.length_cons,
          List.length_map]
        omega
      have hns : (staticValues pre ++ Namespace.Strings (e :: suf)).take (staticValues pre).length
          ++ (staticValues pre ++ Namespace.Strings (e :: suf)).drop
              ((staticValues pre).length + 1)
          = staticValues (pre ++ [e]) ++ Namespace.Strings suf := by
        rw [hs1]
        simp [Namespace.Strings, List.take_append_eq_append_take,
          List.drop_append_eq_append_drop]
      rw [hidx]
      unfold removeDynamic
      rw [if_neg hcond, hget]
      simp only
      rw [hsub, hns, ← hd1, happ, ih (pre ++ [e]), hs1, hsuf, hdw]
      rfl
    · have he2 : e.IsDynamic = false := by simpa using he
      have hidx : dynamicIndexes (e :: suf) pre.length
          = dynamicIndexes suf ((pre ++ [e]).length) := by
        simp [dynamicIndexes, he2]
      have hs1 : staticValues (pre ++ [e]) = staticValues pre ++ [e.Value] := by
        simp [staticValues, he2]
      have hd1 : dynamicWrites (pre ++ [e]) = dynamicWrites pre := by
        simp [dynamicWrites, he2]
      have hsuf : staticValues (e :: suf) = e.Value :: staticValues suf := by
        simp [staticValues, he2]
      have hdw : dynamicWrites (e :: suf) = dynamicWrites suf := by
        simp [dynamicWrites, he2]
      have hns : staticValues pre ++ Namespace.Strings (e :: suf)
          = staticValues (pre ++ [e]) ++ Namespace.Strings suf := by
        rw [hs1]
        simp [Namespace.Strings]
      rw [hidx, hns, ← hd1, happ, ih (pre ++ [e]), hs1, hsuf, hdw]
      simp

theorem tagStep_eq (mtags : List (String × String)) (t : Labels) (kv : String × String) :
    tagStep mtags t kv = writeAll t (tagWrites mtags kv) := by
  unfold tagStep tagWrites
  by_cases hk : kv.1 = STD_TAG_PLUGIN_RUNNING_ON
  · rw [if_pos hk, if_pos hk]
    cases hasKey mtags "source" <;> cases hasKey mtags "host" <;> rfl
  · rw [if_neg hk, if_neg hk]
    rfl

theorem foldl_tagStep (mtags l : List (String × String)) (t : Labels) :
    l.foldl (tagStep mtags) t = writeAll t (l.flatMap (tagWrites mtags)) := by
  induction l generalizing t with
  | nil => rfl
  | cons kv l ih =>
    rw [List.foldl_cons, ih, tagStep_eq, List.flatMap_cons, writeAll_append]

theorem dynamic_writes_nil (n : Namespace) (h : n.any NamespaceElement.IsDynamic = false) :
    dynamicWrites n = [] ∧ staticValues n = Namespace.Strings n := by
  induction n with
  | nil => exact ⟨rfl, rfl⟩
  | cons e n ih =>
    simp only [List.any_cons, Bool.or_eq_false_iff] at h
    obtain ⟨h1, h2⟩ := ih h.2
    constructor
    · simp [dynamicWrites, h.1] at h1 ⊢
      exact h1
    · simp only [staticValues, Namespace.Strings] at h2 ⊢
      simp [h.1, h2]

/-- The closed form of `mangleMetric`: it never panics, the name is the join of the sanitised
static values, and the labels are the result of the write log. -/
theorem mangleMetric_eq (m : Metric) :
    mangleMetric m = some
      { name := mangledName m
        tags := writeAll [] (labelWrites m)
        value := (ParseFloat (formatV m.Data)).getD Float64.zero
        err := match ParseFloat (formatV m.Data) with
          | none => some ⟨mangledName m, m.Data⟩
          | some _ => none } := by
  have hloop : (if (Namespace.IsDynamic m.Namespace).1
      then removeDynamic m.Namespace (Namespace.IsDynamic m.Namespace).2 0
        (Namespace.Strings m.Namespace) []
      else some (Namespace.Strings m.Namespace, []))
      = some (staticValues m.Namespace, writeAll [] (dynamicWrites m.Namespace)) := by
    by_cases hd : (Namespace.IsDynamic m.Namespace).1 = true
    · rw [if_pos hd]
      have := removeDynamic_spec m.Namespace [] []
      simpa [staticValues, dynamicWrites, Namespace.IsDynamic] using this
    · rw [if_neg hd]
      have hd2 : m.Namespace.any NamespaceElement.IsDynamic = false := by
        simpa [Namespace.IsDynamic] using hd
      obtain ⟨h1, h2⟩ := dynamic_writes_nil m.Namespace hd2
      rw [h1, h2]
      rfl
  have htags : List.foldl (tagStep m.Tags)
      (if hasKey m.Tags "unit" then writeAll [] (dynamicWrites m.Namespace)
        else (writeAll [] (dynamicWrites m.Namespace)).set "unit" m.Unit) m.Tags
      = writeAll [] (labelWrites m) := by
    rw [foldl_tagStep]
    unfold labelWrites unitWrites
    rw [writeAll_append, writeAll_append]
    cases hasKey m.Tags "unit" <;> rfl
  unfold mangleMetric
  simp only
  rw [hloop]
  simp only
  rw [htags]
  cases ParseFloat (formatV m.Data) <;> rfl


/-! ## The tag loop -/

theorem hasKey_eq_true (t : List (String × String)) (k : String) :
    hasKey t k = true ↔ k ∈ t.map Prod.fst := by
  simp only [hasKey, List.any_eq_true, List.mem_map, beq_iff_eq]

theorem mem_tagWrites (mtags : List (String × String)) (kv : String × String) (key u : String)
    (h : (key, u) ∈ tagWrites mtags kv) :
    u = kv.2 ∧
      ((kv.1 = STD_TAG_PLUGIN_RUNNING_ON ∧
          ((key = "source" ∧ hasKey mtags "source" = false) ∨
            (key = "host" ∧ hasKey mtags "host" = false))) ∨
        (kv.1 ≠ STD_TAG_PLUGIN_RUNNING_ON ∧ key = ReplaceAllString invalidLabel kv.1 "_")) := by
  unfold tagWrites at h
  by_cases hk : kv.1 = STD_TAG_PLUGIN_RUNNING_ON
  · rw [if_pos hk] at h
    rcases List.mem_append.1 h with h1 | h1
    · cases hs : hasKey mtags "source" with
      | true => simp [hs] at h1
      | false =>
        simp only [hs, Bool.false_eq_true, if_false, List.mem_singleton, Prod.mk.injEq] at h1
        exact ⟨h1.2, Or.inl ⟨hk, Or.inl ⟨h1.1, rfl⟩⟩⟩
    · cases hs : hasKey mtags "host" with
      | true => simp [hs] at h1
      | false =>
        simp only [hs, Bool.false_eq_true, if_false, List.mem_singleton, Prod.mk.injEq] at h1
        exact ⟨h1.2, Or.inl ⟨hk, Or.inr ⟨h1.1, rfl⟩⟩⟩
  · rw [if_neg hk] at h
    simp only [List.mem_singleton, Prod.mk.injEq] at h
    exact ⟨h.2, Or.inr ⟨hk, h.1⟩⟩

/-- A tag key that sanitises to `source`, `host` or `unit` is that word. -/
theorem eq_of_sanitize_eq_word (k w : String) (hw : '_' ∉ w.data)
    (h : ReplaceAllString invalidLabel k "_" = w) : k = w :=
  eq_of_ReplaceAllString_eq invalidLabel k w h hw

/-- All tag-loop writes to one label key carry the same value, when the tag keys are unique and
no two of the unmarked ones sanitise to that label key. -/
theorem tagWrites_unique (mtags : List (String × String)) (hnd : (mtags.map Prod.fst).Nodup)
    (key : String)
    (hinj : ∀ p ∈ mtags, ∀ q ∈ mtags, p.1 ≠ STD_TAG_PLUGIN_RUNNING_ON →
      q.1 ≠ STD_TAG_PLUGIN_RUNNING_ON → ReplaceAllString invalidLabel p.1 "_" = key →
      ReplaceAllString invalidLabel q.1 "_" = key → p.1 = q.1)
    (u w : String) (hu : (key, u) ∈ mtags.flatMap (tagWrites mtags))
    (hw : (key, w) ∈ mtags.flatMap (tagWrites mtags)) : u = w := by
  obtain ⟨p, hp, hpu⟩ := List.mem_flatMap.1 hu
  obtain ⟨q, hq, hqw⟩ := List.mem_flatMap.1 hw
  obtain ⟨eu, cu⟩ := mem_tagWrites mtags p key u hpu
  obtain ⟨ew, cw⟩ := mem_tagWrites mtags q key w hqw
  have hsame : p.1 = q.1 → u = w := by
    intro e
    have := List.inj_on_of_nodup_map hnd hp hq e
    rw [eu, ew, this]
  have hclash : ∀ (a b : String × String), a ∈ mtags →
      b.1 ≠ STD_TAG_PLUGIN_RUNNING_ON → b ∈ mtags →
      key = ReplaceAllString invalidLabel b.1 "_" →
      ((key = "source" ∧ hasKey mtags "source" = false) ∨
        (key = "host" ∧ hasKey mtags "host" = false)) → False := by
    intro a b _ _ hb hkey hc
    rcases hc with ⟨h1, h2⟩ | ⟨h1, h2⟩
    · have hb1 : b.1 = "source" :=
        eq_of_sanitize_eq_word b.1 "source" (by decide) (by rw [← hkey, h1])
      have : hasKey mtags "source" = true :=
        (hasKey_eq_true mtags "source").2 (List.mem_map.2 ⟨b, hb, hb1⟩)
      rw [h2] at this
      exact Bool.noConfusion this
    · have hb1 : b.1 = "host" :=
        eq_of_sanitize_eq_word b.1 "host" (by decide) (by rw [← hkey, h1])
      have : hasKey mtags "host" = true :=
        (hasKey_eq_true mtags "host").2 (List.mem_map.2 ⟨b, hb, hb1⟩)
      rw [h2] at this
      exact Bool.noConfusion this
  rcases cu with ⟨hpm, hpc⟩ | ⟨hpn, hpk⟩
  · rcases cw with ⟨hqm, _⟩ | ⟨hqn, hqk⟩
    · exact hsame (hpm.trans hqm.symm)
    · exact (hclash p q hp hqn hq hqk hpc).elim
  · rcases cw with ⟨_, hqc⟩ | ⟨hqn, hqk⟩
    · exact (hclash q p hq hpn hp hpk hqc).elim
    · exact hsame (hinj p hp q hq hpn hqn hpk.symm hqk.symm)

/-- The label read back for a key that only the tag loop's unique writes decide. -/
theorem get_of_tag_write (m : Metric) (key v : String)
    (hmem : (key, v) ∈ m.Tags.flatMap (tagWrites m.Tags))
    (hu : ∀ u, (key, u) ∈ m.Tags.flatMap (tagWrites m.Tags) → u = v) :
    (writeAll [] (labelWrites m)).get key = some v := by
  rw [get_writeAll]
  unfold labelWrites
  rw [lastWrite_append, lastWrite_of_unique key v _ hmem hu]
  rfl

/-- An unmarked tag is copied under its sanitised key when no other unmarked tag key sanitises
to the same label key. -/
theorem get_sanitized_tag (m : Metric) (k v : String)
    (hnd : (m.Tags.map Prod.fst).Nodup) (hkv : (k, v) ∈ m.Tags)
    (hk : k ≠ STD_TAG_PLUGIN_RUNNING_ON)
    (huniq : ∀ q ∈ m.Tags, q.1 ≠ STD_TAG_PLUGIN_RUNNING_ON →
      ReplaceAllString invalidLabel q.1 "_" = ReplaceAllString invalidLabel k "_" → q.1 = k) :
    (writeAll [] (labelWrites m)).get (ReplaceAllString invalidLabel k "_") = some v := by
  have hmem : (ReplaceAllString invalidLabel k "_", v) ∈ m.Tags.flatMap (tagWrites m.Tags) := by
    refine List.mem_flatMap.2 ⟨(k, v), hkv, ?_⟩
    simp [tagWrites, hk]
  refine get_of_tag_write m _ v hmem (fun u hu => ?_)
  refine tagWrites_unique m.Tags hnd _ ?_ u v hu hmem
  intro p hp q hq hpn hqn hpk hqk
  rw [huniq p hp hpn hpk, huniq q hq hqn hqk]

/-- A tag named by a word without underscore (`source`, `host`, `unit`) is copied verbatim. -/
theorem get_word_tag (m : Metric) (w v : String) (hw : '_' ∉ w.data)
    (hvalid : ∀ c ∈ w.data, invalidLabel c = false)
    (hnd : (m.Tags.map Prod.fst).Nodup) (hkv : (w, v) ∈ m.Tags) :
    (writeAll [] (labelWrites m)).get w = some v := by
  have hs : ReplaceAllString invalidLabel w "_" = w := ReplaceAllString_of_valid _ w hvalid
  have hne : w ≠ STD_TAG_PLUGIN_RUNNING_ON := by
    intro e
    rw [e] at hw
    exact hw (by decide)
  have := get_sanitized_tag m w v hnd hkv hne (fun q _ _ hq => by
    rw [hs] at hq
    exact eq_of_sanitize_eq_word q.1 w hw hq)
  rwa [hs] at this

/-- The marker tag decides `source` (or `host`) when no input tag has that name. -/
theorem get_of_marker (m : Metric) (w v : String) (hw : '_' ∉ w.data)
    (hsh : w = "source" ∨ w = "host")
    (hnd : (m.Tags.map Prod.fst).Nodup) (hmark : (STD_TAG_PLUGIN_RUNNING_ON, v) ∈ m.Tags)
    (hno : w ∉ m.Tags.map Prod.fst) :
    (writeAll [] (labelWrites m)).get w = some v := by
  have hf : hasKey m.Tags w = false := by
    cases h : hasKey m.Tags w with
    | false => rfl
    | true => exact absurd ((hasKey_eq_true m.Tags w).1 h) hno
  have hmem : (w, v) ∈ m.Tags.flatMap (tagWrites m.Tags) := by
    refine List.mem_flatMap.2 ⟨(STD_TAG_PLUGIN_RUNNING_ON, v), hmark, ?_⟩
    rcases hsh with rfl | rfl
    · simp [tagWrites, hf]
    · simp [tagWrites, hf]
  refine get_of_tag_write m w v hmem (fun u hu => ?_)
  refine tagWrites_unique m.Tags hnd w ?_ u v hu hmem
  intro p hp _ _ _ _ hpk _
  have : p.1 = w := eq_of_sanitize_eq_word p.1 w hw hpk
  exact absurd (List.mem_map.2 ⟨p, hp, this⟩) hno

/-- The tag loop never writes `unit` when no input tag has that name. -/
theorem unit_not_tag_written (m : Metric) (hno : "unit" ∉ m.Tags.map Prod.fst) :
    "unit" ∉ tagLabelKeys m := by
  intro h
  obtain ⟨w, hw, hw1⟩ := List.mem_map.1 h
  obtain ⟨p, hp, hpw⟩ := List.mem_flatMap.1 hw
  obtain ⟨a, b⟩ := w
  simp only at hw1
  subst hw1
  obtain ⟨_, c⟩ := mem_tagWrites m.Tags p "unit" b hpw
  rcases c with ⟨_, ⟨h1, _⟩ | ⟨h1, _⟩⟩ | ⟨_, hk⟩
  · exact absurd h1 (by decide)
  · exact absurd h1 (by decide)
  · have : p.1 = "unit" := eq_of_sanitize_eq_word p.1 "unit" (by decide) hk.symm
    exact hno (List.mem_map.2 ⟨p, hp, this⟩)

theorem get_unit_default (m : Metric) (hno : "unit" ∉ m.Tags.map Prod.fst) :
    (writeAll [] (labelWrites m)).get "unit" = some m.Unit := by
  have hf : hasKey m.Tags "unit" = false := by
    cases h : hasKey m.Tags "unit" with
    | false => rfl
    | true => exact absurd ((hasKey_eq_true m.Tags "unit").1 h) hno
  rw [get_writeAll]
  unfold labelWrites
  rw [lastWrite_append, lastWrite_eq_none "unit" _ (unit_not_tag_written m hno),
    lastWrite_append]
  simp [unitWrites, hf, lastWrite]


/-! ## The dynamic elements of a namespace -/

theorem mem_dynamicIndexes (n : Namespace) (s i : Nat) :
    i ∈ dynamicIndexes n s ↔
      s ≤ i ∧ ∃ e, n.get? (i - s) = some e ∧ e.IsDynamic = true := by
  induction n generalizing s with
  | nil => simp [dynamicIndexes]
  | cons a n ih =>
    have step : (s + 1 ≤ i ∧ ∃ e, n.get? (i - (s + 1)) = some e ∧ e.IsDynamic = true) ↔
        (s < i ∧ ∃ e, (a :: n).get? (i - s) = some e ∧ e.IsDynamic = true) := by
      constructor
      · rintro ⟨h1, e, h2, h3⟩
        refine ⟨h1, e, ?_, h3⟩
        have : i - s = (i - (s + 1)) + 1 := by omega
        rw [this]
        exact h2
      · rintro ⟨h1, e, h2, h3⟩
        refine ⟨h1, e, ?_, h3⟩
        have : i - s = (i - (s + 1)) + 1 := by omega
        rw [this] at h2
        exact h2
    unfold dynamicIndexes
    by_cases ha : a.IsDynamic = true
    · rw [if_pos ha, List.mem_cons, ih, step]
      constructor
      · rintro (rfl | ⟨h1, h2⟩)
        · exact ⟨le_refl _, a, by simp, ha⟩
        · exact ⟨le_of_lt h1, h2⟩
      · rintro ⟨h1, h2⟩
        rcases Nat.eq_or_lt_of_le h1 with h | h
        · exact Or.inl h.symm
        · exact Or.inr ⟨h, h2⟩
    · rw [if_neg ha, ih, step]
      constructor
      · rintro ⟨h1, h2⟩
        exact ⟨le_of_lt h1, h2⟩
      · rintro ⟨h1, e, h2, h3⟩
        rcases Nat.eq_or_lt_of_le h1 with h | h
        · subst h
          simp only [Nat.sub_self, List.get?, Option.some.injEq] at h2
          subst h2
          exact absurd h3 ha
        · exact ⟨h, e, h2, h3⟩

theorem dynamicIndexes_increasing (n : Namespace) (s : Nat) :
    (dynamicIndexes n s).Pairwise (fun a b => a < b) := by
  induction n generalizing s with
  | nil => simp [dynamicIndexes]
  | cons a n ih =>
    unfold dynamicIndexes
    by_cases ha : a.IsDynamic = true
    · rw [if_pos ha, List.pairwise_cons]
      refine ⟨fun b hb => ?_, ih (s + 1)⟩
      have := ((mem_dynamicIndexes n (s + 1) b).1 hb).1
      omega
    · rw [if_neg ha]
      exact ih (s + 1)

theorem dynamicWrites_of_no_index (n : Namespace) (s : Nat) (h : dynamicIndexes n s = []) :
    dynamicWrites n = [] := by
  induction n generalizing s with
  | nil => rfl
  | cons a n ih =>
    unfold dynamicIndexes at h
    by_cases ha : a.IsDynamic = true
    · rw [if_pos ha] at h
      exact List.noConfusion h
    · rw [if_neg ha] at h
      have ha2 : a.IsDynamic = false := by simpa using ha
      have := ih (s + 1) h
      simp only [dynamicWrites, List.filter, ha2, List.map_eq_nil_iff] at this ⊢
      exact this

theorem split_at_index (n : Namespace) (i : Nat) (e : NamespaceElement)
    (h : n.get? i = some e) : n = n.take i ++ e :: n.drop (i + 1) := by
  induction n generalizing i with
  | nil => simp at h
  | cons a n ih =>
    cases i with
    | zero =>
      simp only [List.get?, Option.some.injEq] at h
      simp [h]
    | succ i =>
      simp only [List.get?] at h
      have := ih i h
      simp only [List.take_succ_cons, List.drop_succ_cons, List.cons_append, List.cons.injEq,
        true_and]
      exact this

/-- The last write among the dynamic elements to the name of an element after which no dynamic
element has the same name is that element's value. -/
theorem lastWrite_dynamic (n : Namespace) (i : Nat) (e : NamespaceElement)
    (h : n.get? i = some e) (hd : e.IsDynamic = true)
    (hlater : ∀ e2 ∈ n.drop (i + 1), e2.IsDynamic = true → e2.Name ≠ e.Name) :
    lastWrite e.Name (dynamicWrites n) = some e.Value := by
  have hsplit := split_at_index n i e h
  have hw : dynamicWrites n = dynamicWrites (n.take i) ++
      (e.Name, e.Value) :: dynamicWrites (n.drop (i + 1)) := by
    conv_lhs => rw [hsplit]
    rw [dynamicWrites_append]
    simp [dynamicWrites, hd]
  have hnone : lastWrite e.Name (dynamicWrites (n.drop (i + 1))) = none := by
    apply lastWrite_eq_none
    intro hmem
    obtain ⟨w, hw1, hw2⟩ := List.mem_map.1 hmem
    unfold dynamicWrites at hw1
    obtain ⟨e2, he2, rfl⟩ := List.mem_map.1 hw1
    obtain ⟨he2m, he2d⟩ := List.mem_filter.1 he2
    exact hlater e2 he2m he2d hw2
  rw [hw, lastWrite_append]
  simp [lastWrite, hnone]

/-- The label read back for the name of a dynamic element that no later write overwrites. -/
theorem get_dynamic (m : Metric) (i : Nat) (e : NamespaceElement)
    (h : m.Namespace.get? i = some e) (hd : e.IsDynamic = true)
    (hlater : ∀ e2 ∈ m.Namespace.drop (i + 1), e2.IsDynamic = true → e2.Name ≠ e.Name)
    (hunit : e.Name ≠ "unit") (htag : e.Name ∉ tagLabelKeys m) :
    (writeAll [] (labelWrites m)).get e.Name = some e.Value := by
  have hu : lastWrite e.Name (unitWrites m) = none := by
    apply lastWrite_eq_none
    unfold unitWrites
    cases hasKey m.Tags "unit" with
    | true => simp
    | false =>
      simp only [Bool.false_eq_true, if_false, List.map_cons, List.map_nil, List.mem_singleton]
      exact hunit
  rw [get_writeAll]
  unfold labelWrites
  rw [lastWrite_append, lastWrite_eq_none e.Name _ htag, lastWrite_append, hu,
    lastWrite_dynamic m.Namespace i e h hd hlater]
  rfl

/-- Without dynamic elements every label key is `unit` or written from the tags. -/
theorem keys_of_static (m : Metric) (h : dynamicIndexes m.Namespace 0 = []) (k : String)
    (hk : k ∈ (writeAll [] (labelWrites m)).keys) : k = "unit" ∨ k ∈ tagLabelKeys m := by
  rw [mem_keys_writeAll] at hk
  rcases hk with hk | hk
  · unfold labelWrites at hk
    rw [dynamicWrites_of_no_index m.Namespace 0 h] at hk
    simp only [List.nil_append, List.map_append, List.mem_append] at hk
    rcases hk with hk | hk
    · left
      unfold unitWrites at hk
      cases hs : hasKey m.Tags "unit" with
      | true => simp [hs] at hk
      | false => simpa [hs] using hk
    · exact Or.inr hk
  · simp [Labels.keys] at hk


/-! ## Iteration order, well-formedness and the batch loop -/

theorem lastWrite_perm (k : String) (a b : List (String × String)) (hp : a.Perm b)
    (hf : ∀ u w, (k, u) ∈ a → (k, w) ∈ a → u = w) : lastWrite k a = lastWrite k b := by
  cases hl : lastWrite k a with
  | some v =>
    have hv := lastWrite_mem k v a hl
    symm
    apply lastWrite_of_unique k v b (hp.mem_iff.1 hv)
    intro u hu
    exact hf u v (hp.mem_iff.2 hu) hv
  | none =>
    symm
    apply lastWrite_eq_none
    intro hmem
    obtain ⟨w, hw, hw1⟩ := List.mem_map.1 hmem
    obtain ⟨x, y⟩ := w
    simp only at hw1
    subst hw1
    obtain ⟨u, hu⟩ := lastWrite_isSome x y a (hp.mem_iff.2 hw)
    rw [hl] at hu
    exact Option.noConfusion hu

theorem hasKey_perm (t1 t2 : List (String × String)) (hp : t1.Perm t2) (k : String) :
    hasKey t1 k = hasKey t2 k := by
  cases h : hasKey t2 k with
  | true =>
    rw [hasKey_eq_true] at h ⊢
    exact (hp.map Prod.fst).mem_iff.2 h
  | false =>
    cases h1 : hasKey t1 k with
    | false => rfl
    | true =>
      rw [hasKey_eq_true] at h1
      have := (hasKey_eq_true t2 k).2 ((hp.map Prod.fst).mem_iff.1 h1)
      rw [h] at this
      exact Bool.noConfusion this

theorem tagWrites_perm (t1 t2 : List (String × String)) (hp : t1.Perm t2) :
    tagWrites t1 = tagWrites t2 := by
  funext kv
  unfold tagWrites
  rw [hasKey_perm t1 t2 hp "source", hasKey_perm t1 t2 hp "host"]

/-- The labels do not depend on the iteration order of the tags when the tag keys are unique
and sanitising is injective on the unmarked ones. -/
theorem get_labels_perm (m : Metric) (tags2 : List (String × String))
    (hperm : m.Tags.Perm tags2) (hnd : (m.Tags.map Prod.fst).Nodup)
    (hinj : ∀ p ∈ m.Tags, ∀ q ∈ m.Tags, p.1 ≠ STD_TAG_PLUGIN_RUNNING_ON →
      q.1 ≠ STD_TAG_PLUGIN_RUNNING_ON →
      ReplaceAllString invalidLabel p.1 "_" = ReplaceAllString invalidLabel q.1 "_" →
      p.1 = q.1) (k : String) :
    (writeAll [] (labelWrites m)).get k
      = (writeAll [] (labelWrites { m with Tags := tags2 })).get k := by
  rw [get_writeAll, get_writeAll]
  unfold labelWrites unitWrites
  simp only
  rw [← hasKey_perm m.Tags tags2 hperm "unit", ← tagWrites_perm m.Tags tags2 hperm,
    lastWrite_append, lastWrite_append k _ (tags2.flatMap (tagWrites m.Tags))]
  have hl : lastWrite k (m.Tags.flatMap (tagWrites m.Tags))
      = lastWrite k (tags2.flatMap (tagWrites m.Tags)) := by
    apply lastWrite_perm k _ _ (hperm.flatMap_right _)
    intro u w hu hw
    refine tagWrites_unique m.Tags hnd k ?_ u w hu hw
    intro p hp q hq hpn hqn hpk hqk
    exact hinj p hp q hq hpn hqn (hpk.trans hqk.symm)
  rw [hl]

theorem Join_cons_cons (a b : String) (rest : List String) (sep : String) :
    Join (a :: b :: rest) sep = a ++ sep ++ Join (b :: rest) sep := rfl

theorem mem_Join (l : List String) (sep : String) (c : Char) (h : c ∈ (Join l sep).data) :
    c ∈ sep.data ∨ ∃ s ∈ l, c ∈ s.data := by
  induction l with
  | nil => simp [Join] at h
  | cons a l ih =>
    cases l with
    | nil => exact Or.inr ⟨a, List.mem_cons_self _ _, h⟩
    | cons b rest =>
      rw [Join_cons_cons, String.data_append, String.data_append, List.mem_append,
        List.mem_append] at h
      rcases h with (h | h) | h
      · exact Or.inr ⟨a, List.mem_cons_self _ _, h⟩
      · exact Or.inl h
      · rcases ih h with h1 | ⟨s, hs, hc⟩
        · exact Or.inl h1
        · exact Or.inr ⟨s, List.mem_cons_of_mem _ hs, hc⟩

theorem Join_eq_empty (l : List String) : Join l "_" = "" ↔ l = [] ∨ l = [""] := by
  cases l with
  | nil => simp [Join]
  | cons a l =>
    cases l with
    | nil => simp [Join]
    | cons b rest =>
      rw [Join_cons_cons]
      constructor
      · intro h
        have hd := congrArg String.data h
        rw [String.data_append, String.data_append] at hd
        have : '_' ∈ ("" : String).data := by
          rw [← hd]
          simp
        simp at this
      · rintro (h | h)
        · exact List.noConfusion h
        · simp at h

theorem mangled_name_valid (m : Metric) :
    ∀ c ∈ (mangledName m).data, invalidMetric c = false := by
  intro c hc
  unfold mangledName at hc
  rcases mem_Join _ _ c hc with h | ⟨s, hs, hcs⟩
  · have : c = '_' := by simpa using h
    rw [this]
    exact invalidMetric_underscore
  · obtain ⟨v, _, rfl⟩ := List.mem_map.1 hs
    exact ReplaceAllString_valid invalidMetric invalidMetric_underscore v c hcs

theorem ReplaceAllString_eq_empty (re : Char → Bool) (s : String)
    (h : ReplaceAllString re s "_" = "") : s = "" := by
  apply String.ext
  have := congrArg String.data h
  rw [ReplaceAllString_data] at this
  simpa using this

/-- Where each label key comes from. -/
theorem mem_label_keys (m : Metric) (k : String)
    (hk : k ∈ (writeAll [] (labelWrites m)).keys) :
    (∃ e ∈ m.Namespace, e.IsDynamic = true ∧ e.Name = k) ∨ k = "unit" ∨ k = "source" ∨
      k = "host" ∨ ∃ p ∈ m.Tags, ReplaceAllString invalidLabel p.1 "_" = k := by
  rw [mem_keys_writeAll] at hk
  rcases hk with hk | hk
  · unfold labelWrites at hk
    simp only [List.map_append, List.mem_append] at hk
    rcases hk with (hk | hk) | hk
    · left
      obtain ⟨w, hw, rfl⟩ := List.mem_map.1 hk
      unfold dynamicWrites at hw
      obtain ⟨e, he, rfl⟩ := List.mem_map.1 hw
      obtain ⟨he1, he2⟩ := List.mem_filter.1 he
      exact ⟨e, he1, he2, rfl⟩
    · right; left
      unfold unitWrites at hk
      cases hs : hasKey m.Tags "unit" with
      | true => simp [hs] at hk
      | false => simpa [hs] using hk
    · obtain ⟨w, hw, hw1⟩ := List.mem_map.1 hk
      obtain ⟨p, hp, hpw⟩ := List.mem_flatMap.1 hw
      obtain ⟨x, y⟩ := w
      simp only at hw1
      subst hw1
      obtain ⟨_, c⟩ := mem_tagWrites m.Tags p x y hpw
      rcases c with ⟨_, ⟨h1, _⟩ | ⟨h1, _⟩⟩ | ⟨_, hk2⟩
      · exact Or.inr (Or.inr (Or.inl h1))
      · exact Or.inr (Or.inr (Or.inr (Or.inl h1)))
      · exact Or.inr (Or.inr (Or.inr (Or.inr ⟨p, hp, hk2.symm⟩)))
  · simp [Labels.keys] at hk

theorem label_key_valid (m : Metric) (k : String)
    (hk : k ∈ (writeAll [] (labelWrites m)).keys) :
    (∀ c ∈ k.data, invalidLabel c = false) ∨
      ∃ e ∈ m.Namespace, e.IsDynamic = true ∧ e.Name = k := by
  rcases mem_label_keys m k hk with h | rfl | rfl | rfl | ⟨p, _, rfl⟩
  · exact Or.inr h
  · exact Or.inl (by decide)
  · exact Or.inl (by decide)
  · exact Or.inl (by decide)
  · exact Or.inl (ReplaceAllString_valid invalidLabel invalidLabel_underscore p.1)

theorem empty_label_key (m : Metric) (hk : "" ∈ (writeAll [] (labelWrites m)).keys) :
    "" ∈ m.Tags.map Prod.fst := by
  rcases mem_label_keys m "" hk with ⟨e, _, hd, hn⟩ | h | h | h | ⟨p, hp, hs⟩
  · simp [NamespaceElement.IsDynamic, hn] at hd
  · exact absurd h (by decide)
  · exact absurd h (by decide)
  · exact absurd h (by decide)
  · exact List.mem_map.2 ⟨p, hp, ReplaceAllString_eq_empty invalidLabel p.1 hs⟩

theorem pushes_append (a b : List Event) : pushes (a ++ b) = pushes a ++ pushes b := by
  simp [pushes, List.filterMap_append]

theorem decodeErrors_append (a b : List Event) :
    decodeErrors (a ++ b) = decodeErrors a ++ decodeErrors b := by
  simp [decodeErrors, List.filterMap_append]

theorem sendLoop_cons_rejected (promUrl : String)
    (pushFails : PushRequest → List Event → Bool) (m : Metric) (ms : List Metric)
    (log : List Event) (h : ParseFloat (formatV m.Data) = none) :
    ∃ e, sendLoop promUrl pushFails (m :: ms) log
        = sendLoop promUrl pushFails ms (log ++ [Event.logDecodeError e]) ∧
      requestOf promUrl m = none ∧ decodeErrorOf m = some e := by
  refine ⟨⟨mangledName m, m.Data⟩, ?_, ?_, ?_⟩
  · conv_lhs => unfold sendLoop
    rw [mangleMetric_eq m]
    simp only [h]
  · unfold requestOf
    rw [mangleMetric_eq m]
    simp only [h]
  · unfold decodeErrorOf
    rw [mangleMetric_eq m]
    simp only [h]

theorem sendLoop_cons_accepted (promUrl : String)
    (pushFails : PushRequest → List Event → Bool) (m : Metric) (ms : List Metric)
    (log : List Event) (f : Float64) (h : ParseFloat (formatV m.Data) = some f) :
    ∃ req, ∃ extra : List Event, sendLoop promUrl pushFails (m :: ms) log
        = sendLoop promUrl pushFails ms (log ++ Event.push req :: extra) ∧
      requestOf promUrl m = some req ∧ decodeErrorOf m = none ∧
      pushes extra = [] ∧ decodeErrors extra = [] := by
  by_cases hp : pushFails ⟨promUrl, mangledName m, mangledName m,
      "Collected metric " ++ mangledName m, f, writeAll [] (labelWrites m)⟩ log = true
  · refine ⟨⟨promUrl, mangledName m, mangledName m, "Collected metric " ++ mangledName m, f,
      writeAll [] (labelWrites m)⟩,
      [Event.logPushError (mangledName m) (writeAll [] (labelWrites m)) f], ?_, ?_, ?_, rfl,
      rfl⟩
    · conv_lhs => unfold sendLoop
      rw [mangleMetric_eq m]
      simp only [h, Option.getD_some]
      rw [if_pos hp]
    · unfold requestOf
      rw [mangleMetric_eq m]
      simp only [h, Option.getD_some]
    · unfold decodeErrorOf
      rw [mangleMetric_eq m]
      simp only [h]
  · refine ⟨⟨promUrl, mangledName m, mangledName m, "Collected metric " ++ mangledName m, f,
      writeAll [] (labelWrites m)⟩, [], ?_, ?_, ?_, rfl, rfl⟩
    · conv_lhs => unfold sendLoop
      rw [mangleMetric_eq m]
      simp only [h, Option.getD_some]
      rw [if_neg hp]
    · unfold requestOf
      rw [mangleMetric_eq m]
      simp only [h, Option.getD_some]
    · unfold decodeErrorOf
      rw [mangleMetric_eq m]
      simp only [h]

/-- The batch loop runs to its end and forwards exactly the accepted metrics, whatever the
outcome of each push. -/
theorem sendLoop_spec (promUrl : String) (pushFails : PushRequest → List Event → Bool)
    (ms : List Metric) (log : List Event) :
    ∃ out, sendLoop promUrl pushFails ms log = some out ∧
      pushes out = pushes log ++ ms.filterMap (requestOf promUrl) ∧
      decodeErrors out = decodeErrors log ++ ms.filterMap decodeErrorOf := by
  induction ms generalizing log with
  | nil => exact ⟨log, rfl, by simp, by simp⟩
  | cons m ms ih =>
    cases hpf : ParseFloat (formatV m.Data) with
    | none =>
      obtain ⟨e, hstep, hreq, herr⟩ := sendLoop_cons_rejected promUrl pushFails m ms log hpf
      obtain ⟨out, h1, h2, h3⟩ := ih (log ++ [Event.logDecodeError e])
      refine ⟨out, hstep.trans h1, ?_, ?_⟩
      · rw [h2, pushes_append, List.filterMap_cons, hreq]
        simp [pushes]
      · rw [h3, decodeErrors_append, List.filterMap_cons, herr]
        simp [decodeErrors]
    | some f =>
      obtain ⟨req, extra, hstep, hreq, herr, hx1, hx2⟩ :=
        sendLoop_cons_accepted promUrl pushFails m ms log f hpf
      obtain ⟨out, h1, h2, h3⟩ := ih (log ++ Event.push req :: extra)
      refine ⟨out, hstep.trans h1, ?_, ?_⟩
      · rw [h2, pushes_append, List.filterMap_cons, hreq]
        have : pushes (Event.push req :: extra) = req :: pushes extra := rfl
        rw [this, hx1]
        simp
      · rw [h3, decodeErrors_append, List.filterMap_cons, herr]
        have : decodeErrors (Event.push req :: extra) = decodeErrors extra := rfl
        rw [this, hx2]
        simp


/-! ## Rendering and parsing of integers -/

/-- C2: for every metric and every input tag `(k, v)` whose key is not the running-on marker,
if no other unmarked input tag key sanitises to the same label key, then `mangleMetric` returns
a label map that maps the sanitised key (every character outside `[a-zA-Z0-9_]` replaced by an
underscore) to `v` unchanged, whatever the unit, the namespace, the marker tag and the order in
which the tags are iterated. -/
theorem mangleMetric_copies_tag (m : Metric) (k v : String)
    (hnd : (m.Tags.map Prod.fst).Nodup) (hkv : (k, v) ∈ m.Tags)
    (hk : k ≠ STD_TAG_PLUGIN_RUNNING_ON)
    (huniq : ∀ q ∈ m.Tags, q.1 ≠ STD_TAG_PLUGIN_RUNNING_ON →
      ReplaceAllString invalidLabel q.1 "_" = ReplaceAllString invalidLabel k "_" → q.1 = k) :
    ∃ r, mangleMetric m = some r ∧
      r.tags.get (ReplaceAllString invalidLabel k "_") = some v :=
  ⟨_, mangleMetric_eq m, get_sanitized_tag m k v hnd hkv hk huniq⟩

/-- C2, at a concrete input: the tag `node.id` of a metric that also carries the marker tag and
a dynamic namespace element is returned as the label `node_id`. -/
theorem mangleMetric_copies_tag_witness :
    ReplaceAllString invalidLabel "node.id" "_" = "node_id" ∧
      ∃ r, mangleMetric
          ⟨[⟨"cpu", "", ""⟩, ⟨"0", "", "core"⟩], [("plugin_running_on", "h1"), ("node.id", "7")],
            "B", Data.int 42⟩ = some r ∧
        r.tags.get (ReplaceAllString invalidLabel "node.id" "_") = some "7" :=
  ⟨by decide,
    mangleMetric_copies_tag
      ⟨[⟨"cpu", "", ""⟩, ⟨"0", "", "core"⟩], [("plugin_running_on", "h1"), ("node.id", "7")],
        "B", Data.int 42⟩ "node.id" "7" (by decide) (by decide) (by decide) (by decide)⟩

/-- C3: for every metric whose input tags contain the running-on marker with value `v`: the
returned label `source` is `v` when no input tag is named `source`, the returned label `host`
is `v` when no input tag is named `host`, and an input tag `source` (or `host`) with value `s`
is returned as the label `source` (or `host`) with value `s`, not overwritten by `v`; for every
tag iteration order and every namespace. -/
theorem mangleMetric_running_on (m : Metric) (v : String)
    (hnd : (m.Tags.map Prod.fst).Nodup)
    (hmark : (STD_TAG_PLUGIN_RUNNING_ON, v) ∈ m.Tags) :
    ∃ r, mangleMetric m = some r ∧
      ("source" ∉ m.Tags.map Prod.fst → r.tags.get "source" = some v) ∧
      ("host" ∉ m.Tags.map Prod.fst → r.tags.get "host" = some v) ∧
      (∀ s, ("source", s) ∈ m.Tags → r.tags.get "source" = some s) ∧
      (∀ s, ("host", s) ∈ m.Tags → r.tags.get "host" = some s) :=
  ⟨_, mangleMetric_eq m,
    get_of_marker m "source" v (by decide) (Or.inl rfl) hnd hmark,
    get_of_marker m "host" v (by decide) (Or.inr rfl) hnd hmark,
    fun s hs => get_word_tag m "source" s (by decide) (by decide) hnd hs,
    fun s hs => get_word_tag m "host" s (by decide) (by decide) hnd hs⟩

/-- C3, at a concrete input: with the marker `h1` and an input tag `source = s0`, the label
`source` stays `s0` and the label `host` becomes `h1`. -/
theorem mangleMetric_running_on_witness :
    ∃ r, mangleMetric
        ⟨[⟨"cpu", "", ""⟩, ⟨"host", "", "h9"⟩], [("source", "s0"), ("plugin_running_on", "h1")],
          "", Data.int 1⟩ = some r ∧
      r.tags.get "source" = some "s0" ∧ r.tags.get "host" = some "h1" := by
  obtain ⟨r, hr, _, hhost, hsrc, _⟩ := mangleMetric_running_on
    ⟨[⟨"cpu", "", ""⟩, ⟨"host", "", "h9"⟩], [("source", "s0"), ("plugin_running_on", "h1")],
      "", Data.int 1⟩ "h1" (by decide) (by decide)
  exact ⟨r, hr, hsrc "s0" (by decide), hhost (by decide)⟩

/-- C4: for every metric the label map returned by `mangleMetric` has a `unit` label: the value
of the input tag `unit` when there is one (the `Unit` field is then not used), and otherwise the
metric's `Unit` string, also when it is empty; even when a dynamic namespace element is named
`unit`, and for every tag iteration order. -/
theorem mangleMetric_unit (m : Metric) (hnd : (m.Tags.map Prod.fst).Nodup) :
    ∃ r, mangleMetric m = some r ∧
      (∀ u, ("unit", u) ∈ m.Tags → r.tags.get "unit" = some u) ∧
      ("unit" ∉ m.Tags.map Prod.fst → r.tags.get "unit" = some m.Unit) :=
  ⟨_, mangleMetric_eq m,
    fun u hu => get_word_tag m "unit" u (by decide) (by decide) hnd hu,
    get_unit_default m⟩

/-- C4, at a concrete input: a metric with a dynamic element named `unit`, an empty `Unit`
field and no `unit` tag gets the empty `unit` label. -/
theorem mangleMetric_unit_witness :
    ∃ r, mangleMetric ⟨[⟨"cpu", "", ""⟩, ⟨"x", "", "unit"⟩], [("a", "1")], "", Data.int 1⟩
        = some r ∧ r.tags.get "unit" = some "" := by
  obtain ⟨r, hr, _, hdef⟩ := mangleMetric_unit
    ⟨[⟨"cpu", "", ""⟩, ⟨"x", "", "unit"⟩], [("a", "1")], "", Data.int 1⟩ (by decide)
  exact ⟨r, hr, hdef (by decide)⟩

/-- C10: sanitisation is idempotent: for every string, replacing every character outside
`[a-zA-Z0-9:_]` by an underscore and doing so again returns the first result, likewise for the
label-key class `[a-zA-Z0-9_]`, and a string already inside the class is returned unchanged. -/
theorem sanitize_idempotent (s : String) :
    ReplaceAllString invalidMetric (ReplaceAllString invalidMetric s "_") "_"
        = ReplaceAllString invalidMetric s "_" ∧
      ReplaceAllString invalidLabel (ReplaceAllString invalidLabel s "_") "_"
        = ReplaceAllString invalidLabel s "_" ∧
      ((∀ c ∈ s.data, invalidMetric c = false) → ReplaceAllString invalidMetric s "_" = s) ∧
      ((∀ c ∈ s.data, invalidLabel c = false) → ReplaceAllString invalidLabel s "_" = s) :=
  ⟨ReplaceAllString_idem invalidMetric invalidMetric_underscore s,
    ReplaceAllString_idem invalidLabel invalidLabel_underscore s,
    ReplaceAllString_of_valid invalidMetric s,
    ReplaceAllString_of_valid invalidLabel s⟩

/-- C10, at a concrete input: `node_id` lies inside both classes and is returned unchanged. -/
theorem sanitize_idempotent_witness :
    (∀ c ∈ "node_id".data, invalidMetric c = false) ∧
      (∀ c ∈ "node_id".data, invalidLabel c = false) ∧
      ReplaceAllString invalidMetric "node_id" "_" = "node_id" ∧
      ReplaceAllString invalidLabel "node_id" "_" = "node_id" :=
  ⟨by decide, by decide, (sanitize_idempotent "node_id").2.2.1 (by decide),
    (sanitize_idempotent "node_id").2.2.2 (by decide)⟩


/-! ## Claims about the namespace -/

/-- C1: for every metric, with any number of dynamic namespace elements at any positions, the
index list reported by `Namespace.IsDynamic` is the strictly increasing list of the positions of
the dynamic elements, the deletion loop does not fail, and `mangleMetric` returns as name the
underscore-join of the values of the static elements in their original order, each with every
character outside `[a-zA-Z0-9:_]` replaced by an underscore; for every dynamic element the
returned label map maps its `Name` to its `Value`, provided that `Name` is not the name of a
later dynamic element, the key `unit`, or a label key written from the input tags; and with no
dynamic element no label comes from the namespace. -/
theorem mangleMetric_namespace (m : Metric) :
    ∃ r, mangleMetric m = some r ∧
      (Namespace.IsDynamic m.Namespace).2.Pairwise (fun a b => a < b) ∧
      (∀ i, i ∈ (Namespace.IsDynamic m.Namespace).2 ↔
        ∃ e, m.Namespace.get? i = some e ∧ e.IsDynamic = true) ∧
      r.name = Join ((staticValues m.Namespace).map
        (fun v => ReplaceAllString invalidMetric v "_")) "_" ∧
      (∀ i e, m.Namespace.get? i = some e → e.IsDynamic = true →
        (∀ e2 ∈ m.Namespace.drop (i + 1), e2.IsDynamic = true → e2.Name ≠ e.Name) →
        e.Name ≠ "unit" → e.Name ∉ tagLabelKeys m → r.tags.get e.Name = some e.Value) ∧
      ((Namespace.IsDynamic m.Namespace).2 = [] →
        ∀ k ∈ r.tags.keys, k = "unit" ∨ k ∈ tagLabelKeys m) :=
  ⟨_, mangleMetric_eq m, dynamicIndexes_increasing m.Namespace 0,
    fun i => by
      have := mem_dynamicIndexes m.Namespace 0 i
      simpa [Namespace.IsDynamic] using this,
    rfl, get_dynamic m, keys_of_static m⟩

/-- C1, at the namespace `[a, D1, b, D2, c]`: the dynamic indexes are 1 and 3, the name is
`a_b_c` and the labels `D1` and `D2` carry the values of the two dynamic elements. -/
theorem mangleMetric_namespace_witness :
    (Namespace.IsDynamic
        [⟨"a", "", ""⟩, ⟨"x", "", "D1"⟩, ⟨"b", "", ""⟩, ⟨"y", "", "D2"⟩, ⟨"c", "", ""⟩]).2
        = [1, 3] ∧
      ∃ r, mangleMetric
          ⟨[⟨"a", "", ""⟩, ⟨"x", "", "D1"⟩, ⟨"b", "", ""⟩, ⟨"y", "", "D2"⟩, ⟨"c", "", ""⟩],
            [("k", "v")], "B", Data.int 42⟩ = some r ∧
        r.name = "a_b_c" ∧ r.tags.get "D1" = some "x" ∧ r.tags.get "D2" = some "y" := by
  obtain ⟨r, hr, _, _, hname, hdyn, _⟩ := mangleMetric_namespace
    ⟨[⟨"a", "", ""⟩, ⟨"x", "", "D1"⟩, ⟨"b", "", ""⟩, ⟨"y", "", "D2"⟩, ⟨"c", "", ""⟩],
      [("k", "v")], "B", Data.int 42⟩
  refine ⟨by decide, r, hr, ?_, ?_, ?_⟩
  · rw [hname]
    decide
  · exact hdyn 1 ⟨"x", "", "D1"⟩ (by decide) (by decide) (by decide) (by decide) (by decide)
  · exact hdyn 3 ⟨"y", "", "D2"⟩ (by decide) (by decide) (by decide) (by decide) (by decide)


/-! ## Claims about failures, batches, iteration order and well-formedness -/

/-- C6, as the code has it: for the metric with namespace `[a]`, unit `B` and the boolean value
`true`, `mangleMetric` returns the error together with the mangled name `a`, the label map
holding `unit` and the value 0, so the name and the label map are not empty on failure. -/
theorem mangleMetric_failure_keeps_output :
    mangleMetric ⟨[⟨"a", "", ""⟩], [], "B", Data.bool true⟩
      = some ⟨"a", [("unit", "B")], Float64.zero, some ⟨"a", Data.bool true⟩⟩ := by
  decide

/-- C6, amended: for every metric whose rendered value cannot be parsed as a float,
`mangleMetric` sets the error, which carries the mangled name and the original value, and
returns the value 0, while the returned name and label map are the mangled ones, the same as
the metric would get with any other value. -/
theorem mangleMetric_failure (m : Metric) (h : ParseFloat (formatV m.Data) = none) :
    ∃ r, mangleMetric m = some r ∧
      r.err = some ⟨r.name, m.Data⟩ ∧ r.value = Float64.zero ∧
      r.name = Join ((staticValues m.Namespace).map
        (fun v => ReplaceAllString invalidMetric v "_")) "_" ∧
      ∀ d, ∃ r2, mangleMetric { m with Data := d } = some r2 ∧
        r2.name = r.name ∧ r2.tags = r.tags := by
  refine ⟨_, mangleMetric_eq m, ?_, ?_, rfl, fun d => ⟨_, mangleMetric_eq _, rfl, rfl⟩⟩
  · simp only [h]
  · simp only [h]
    rfl

/-- C6, amended, at a concrete input: the boolean metric of the counterexample. -/
theorem mangleMetric_failure_witness :
    ParseFloat (formatV (Data.bool true)) = none ∧
      ∃ r, mangleMetric ⟨[⟨"a", "", ""⟩], [], "B", Data.bool true⟩ = some r ∧
        r.err = some ⟨r.name, Data.bool true⟩ ∧ r.value = Float64.zero := by
  obtain ⟨r, hr, herr, hval, _, _⟩ :=
    mangleMetric_failure ⟨[⟨"a", "", ""⟩], [], "B", Data.bool true⟩ (by decide)
  exact ⟨by decide, r, hr, herr, hval⟩

/-- C7: for every batch passed to `sendMetrics` and every behaviour of the push call (which may
fail on any metric), the loop runs to the end of the batch; the push requests made are exactly
those of the metrics that `mangleMetric` accepts, once each, in batch order, each with its own
mangled name, labels and value; a metric that `mangleMetric` rejects is not forwarded and its
error is logged. -/
theorem sendMetrics_forwards_accepted (promUrl : String)
    (pushFails : PushRequest → List Event → Bool) (metrics : List Metric) :
    ∃ log, sendMetrics promUrl pushFails metrics = some log ∧
      pushes log = metrics.filterMap (requestOf promUrl) ∧
      decodeErrors log = metrics.filterMap decodeErrorOf ∧
      (∀ m ∈ metrics, ∃ r, mangleMetric m = some r ∧
        (r.err = none →
          requestOf promUrl m = some ⟨promUrl, r.name, r.name, "Collected metric " ++ r.name,
            r.value, r.tags⟩) ∧
        (r.err ≠ none → requestOf promUrl m = none)) := by
  obtain ⟨out, h1, h2, h3⟩ := sendLoop_spec promUrl pushFails metrics []
  refine ⟨out, h1, by simpa [pushes] using h2, by simpa [decodeErrors] using h3, ?_⟩
  intro m _
  refine ⟨_, mangleMetric_eq m, ?_, ?_⟩
  · intro he
    unfold requestOf
    rw [mangleMetric_eq m]
    simp only at he ⊢
    rw [he]
  · intro he
    unfold requestOf
    rw [mangleMetric_eq m]
    simp only at he ⊢
    cases hpf : ParseFloat (formatV m.Data) with
    | none => rfl
    | some f => simp [hpf] at he

/-- C7, at a concrete batch: of three metrics whose second has the boolean value `true`, the
first and the third are pushed, in this order, although every push fails. -/
theorem sendMetrics_forwards_accepted_witness :
    ∃ log, sendMetrics "http://gw:9091" (fun _ _ => true)
        [⟨[⟨"a", "", ""⟩], [], "", Data.int 1⟩, ⟨[⟨"b", "", ""⟩], [], "", Data.bool true⟩,
          ⟨[⟨"c", "", ""⟩], [], "", Data.int 3⟩] = some log ∧
      (pushes log).map (fun req => req.gaugeName) = ["a", "c"] := by
  obtain ⟨log, h1, h2, _⟩ := sendMetrics_forwards_accepted "http://gw:9091" (fun _ _ => true)
    [⟨[⟨"a", "", ""⟩], [], "", Data.int 1⟩, ⟨[⟨"b", "", ""⟩], [], "", Data.bool true⟩,
      ⟨[⟨"c", "", ""⟩], [], "", Data.int 3⟩]
  refine ⟨log, h1, ?_⟩
  rw [h2]
  decide

/-- C8, as the code has it: the tag keys `a.b` and `a_b` are distinct and both sanitise to the
label key `a_b`; iterated in one order the label `a_b` gets the value 2, in the other order the
value 1, so two iteration orders of one tag map give different label maps. -/
theorem mangleMetric_order_dependent :
    ([("a.b", "1"), ("a_b", "2")] : List (String × String)).Perm [("a_b", "2"), ("a.b", "1")] ∧
      (([("a.b", "1"), ("a_b", "2")] : List (String × String)).map Prod.fst).Nodup ∧
      (mangleMetric ⟨[⟨"cpu", "", ""⟩], [("a.b", "1"), ("a_b", "2")], "", Data.int 1⟩).map
          (fun r => r.tags.get "a_b") = some (some "2") ∧
      (mangleMetric ⟨[⟨"cpu", "", ""⟩], [("a_b", "2"), ("a.b", "1")], "", Data.int 1⟩).map
          (fun r => r.tags.get "a_b") = some (some "1") :=
  ⟨List.Perm.swap _ _ _, by decide, by decide, by decide⟩

/-- C8, amended: for every metric whose tag keys are unique and whose tag keys other than the
running-on marker sanitise to pairwise distinct label keys, and for every other order `tags2`
in which the tag map may be iterated, `mangleMetric` returns the same name, the same value, the
same failure and a label map with the same value under every key. -/
theorem mangleMetric_order_independent (m : Metric) (tags2 : List (String × String))
    (hperm : m.Tags.Perm tags2) (hnd : (m.Tags.map Prod.fst).Nodup)
    (hinj : ∀ p ∈ m.Tags, ∀ q ∈ m.Tags, p.1 ≠ STD_TAG_PLUGIN_RUNNING_ON →
      q.1 ≠ STD_TAG_PLUGIN_RUNNING_ON →
      ReplaceAllString invalidLabel p.1 "_" = ReplaceAllString invalidLabel q.1 "_" →
      p.1 = q.1) :
    ∃ r1 r2, mangleMetric m = some r1 ∧ mangleMetric { m with Tags := tags2 } = some r2 ∧
      r1.name = r2.name ∧ r1.value = r2.value ∧ r1.err = r2.err ∧
      ∀ k, r1.tags.get k = r2.tags.get k :=
  ⟨_, _, mangleMetric_eq m, mangleMetric_eq _, rfl, rfl, rfl,
    get_labels_perm m tags2 hperm hnd hinj⟩

/-- C8, amended, at a concrete input: the marker tag and the tag `node.id`, in both orders. -/
theorem mangleMetric_order_independent_witness :
    ∃ r1 r2,
      mangleMetric ⟨[⟨"cpu", "", ""⟩], [("plugin_running_on", "h1"), ("node.id", "7")], "B",
        Data.int 1⟩ = some r1 ∧
      mangleMetric ⟨[⟨"cpu", "", ""⟩], [("node.id", "7"), ("plugin_running_on", "h1")], "B",
        Data.int 1⟩ = some r2 ∧
      r1.name = r2.name ∧ r1.value = r2.value ∧ r1.err = r2.err ∧
      ∀ k, r1.tags.get k = r2.tags.get k :=
  mangleMetric_order_independent
    ⟨[⟨"cpu", "", ""⟩], [("plugin_running_on", "h1"), ("node.id", "7")], "B", Data.int 1⟩
    [("node.id", "7"), ("plugin_running_on", "h1")] (List.Perm.swap _ _ _) (by decide)
    (by decide)

/-- C9, as the code has it: a metric whose namespace holds only the dynamic element named `a.b`
and whose tag map has the empty key is mangled successfully into the empty name, with the
label keys `a.b` (not sanitised) and the empty string. -/
theorem mangleMetric_not_wellformed :
    mangleMetric ⟨[⟨"x", "", "a.b"⟩], [("", "v")], "", Data.int 1⟩
      = some ⟨"", [("", "v"), ("unit", ""), ("a.b", "x")], Float64.fin false (2 ^ 52) (-52),
          none⟩ := by
  decide

/-- C9, amended: for every metric the returned name consists of characters in `[a-zA-Z0-9:_]`
and is empty exactly when the namespace has no static element or its only static element has
the empty value; every key of the returned label map that is not the name of a dynamic
namespace element consists of characters in `[a-zA-Z0-9_]`, and the empty key is returned only
when an input tag has the empty key. -/
theorem mangleMetric_wellformed (m : Metric) :
    ∃ r, mangleMetric m = some r ∧
      (∀ c ∈ r.name.data, invalidMetric c = false) ∧
      (r.name = "" ↔ staticValues m.Namespace = [] ∨ staticValues m.Namespace = [""]) ∧
      (∀ k ∈ r.tags.keys, (∀ c ∈ k.data, invalidLabel c = false) ∨
        ∃ e ∈ m.Namespace, e.IsDynamic = true ∧ e.Name = k) ∧
      ("" ∈ r.tags.keys → "" ∈ m.Tags.map Prod.fst) := by
  refine ⟨_, mangleMetric_eq m, mangled_name_valid m, ?_, label_key_valid m,
    empty_label_key m⟩
  show mangledName m = "" ↔ _
  unfold mangledName
  rw [Join_eq_empty]
  constructor
  · rintro (h | h)
    · exact Or.inl (List.map_eq_nil_iff.1 h)
    · right
      cases hs : staticValues m.Namespace with
      | nil => rw [hs] at h; simp at h
      | cons a l =>
        rw [hs] at h
        simp only [List.map_cons, List.cons.injEq, List.map_eq_nil_iff] at h
        rw [h.2, ReplaceAllString_eq_empty invalidMetric a h.1]
  · rintro (h | h)
    · left; rw [h]; rfl
    · right; rw [h]; rfl

/-- C9, amended, at a concrete input: the label keys of a metric with a static namespace. -/
theorem mangleMetric_wellformed_witness :
    ∃ r, mangleMetric ⟨[⟨"cpu/usage%", "", ""⟩], [("node.id", "7")], "B", Data.int 1⟩ = some r ∧
      r.name ≠ "" ∧ ∀ c ∈ r.name.data, invalidMetric c = false := by
  obtain ⟨r, hr, hchars, hempty, _, _⟩ :=
    mangleMetric_wellformed ⟨[⟨"cpu/usage%", "", ""⟩], [("node.id", "7")], "B", Data.int 1⟩
  refine ⟨r, hr, fun h => ?_, hchars⟩
  have := hempty.1 h
  revert this
  decide


/-! ## Claims about the value -/

/-- A hexadecimal literal and a literal with digit-separating underscores are accepted:
`0x1p-2` gives 0.25 and `1_000` gives 1000. -/
theorem ParseFloat_hex_and_underscore :
    mangleMetric ⟨[⟨"a", "", ""⟩], [], "", Data.str "0x1p-2"⟩
        = some ⟨"a", [("unit", "")], Float64.fin false (2 ^ 52) (-54), none⟩ ∧
      mangleMetric ⟨[⟨"a", "", ""⟩], [], "", Data.str "1_000"⟩
        = some ⟨"a", [("unit", "")], Float64.fin false (1000 * 2 ^ 43) (-43), none⟩ ∧
      ParseFloat "0x1" = none ∧ ParseFloat "1__0" = none ∧ ParseFloat "_1" = none := by
  decide

/-- A decimal literal beyond the float64 range is rejected (`ErrRange`). -/
theorem ParseFloat_out_of_range :
    readFloat "1e400".data = some ⟨1, 400, false, false⟩ ∧
      mangleMetric ⟨[⟨"a", "", ""⟩], [], "", Data.str "1e400"⟩
        = some ⟨"a", [("unit", "")], Float64.zero, some ⟨"a", Data.str "1e400"⟩⟩ := by
  set_option maxRecDepth 100000 in
  set_option exponentiation.threshold 2000 in
  decide

/-- The integer `2^53 + 1` is not a float64: it is returned as `2^53`. -/
theorem ParseFloat_rounds_large_int :
    mangleMetric ⟨[⟨"a", "", ""⟩], [], "", Data.int 9007199254740993⟩
      = some ⟨"a", [("unit", "")], Float64.fin false (2 ^ 52) 1, none⟩ := by
  decide

end Prometheus
